import Mathlib

/-!
Shallow embedding of `src/main.py` (exchange-rate aggregation service).

The Python program fetches PrivatBank exchange rates for the last `days`
days concurrently (`asyncio.gather` with `return_exceptions=True`), drops
failed days with a printed warning, filters the surviving payloads to the
requested currency codes, and returns an ordered list of per-day dicts.

The network is abstracted as a stub `fetch : String → FetchOutcome`
mapping each wire-formatted date to the outcome of
`PrivatBankAPI.fetch_exchange_rates` for that date (either the parsed
JSON payload or the raised exception, which is exactly what
`asyncio.gather(..., return_exceptions=True)` hands back to `get_rates`).
`dateOf i` abstracts `(datetime.now() - timedelta(days=i)).strftime("%d.%m.%Y")`.
Python exceptions escaping the aggregation loop are modelled with `Except`.
-/

namespace ExchangeRates

/-- Python exceptions that `get_rates` itself can raise: the `ValueError`
of the days check, and `KeyError`/`TypeError` arising while the loop
processes a payload. -/
inductive PyErr where
  | valueError (msg : String)
  | keyError (key : String)
  | typeError (msg : String)
deriving DecidableEq

/-- JSON-like values, as returned by `response.json()`. Numbers are carried
opaquely (the program never computes with them, it only moves them), so an
integer carrier is adequate. Objects are insertion-ordered key/value lists,
as produced by Python's `json` module. -/
inductive JValue where
  | null
  | bool (b : Bool)
  | num (n : Int)
  | str (s : String)
  | arr (xs : List JValue)
  | obj (fs : List (String × JValue))

/-- Python truthiness of a JSON value (`if response ...` on line 53). -/
def truthy : JValue → Bool
  | .null => false
  | .bool b => b
  | .num n => !(n == 0)
  | .str s => !(s == "")
  | .arr xs => !xs.isEmpty
  | .obj fs => !fs.isEmpty

/-- Python subscripting `v[k]` with a string key: dict lookup (KeyError
when absent), TypeError on every other JSON shape. -/
def pySubscript (v : JValue) (k : String) : Except PyErr JValue :=
  match v with
  | .obj fs =>
    match fs.lookup k with
    | some x => .ok x
    | none => .error (.keyError k)
  | .arr _ => .error (.typeError "list indices must be integers or slices, not str")
  | .str _ => .error (.typeError "string indices must be integers")
  | _ => .error (.typeError "object is not subscriptable")

/-- Substring test on character lists, for Python `k in s` on strings. -/
def hasInfix (pat : List Char) : List Char → Bool
  | [] => pat.isEmpty
  | c :: rest => pat.isPrefixOf (c :: rest) || hasInfix pat rest

/-- Python membership `k in v` for a string `k`: key test on dicts,
element test on lists (a string only equals a string), substring test on
strings, TypeError on non-containers. -/
def pyContains (v : JValue) (k : String) : Except PyErr Bool :=
  match v with
  | .obj fs => .ok (fs.lookup k).isSome
  | .arr xs => .ok (xs.any fun x => match x with | .str t => t == k | _ => false)
  | .str s => .ok (hasInfix k.toList s.toList)
  | _ => .error (.typeError "argument of type is not iterable")

/-- Python iteration over a JSON value: list elements, dict keys, string
characters; TypeError otherwise. -/
def pyIter (v : JValue) : Except PyErr (List JValue) :=
  match v with
  | .arr xs => .ok xs
  | .obj fs => .ok (fs.map fun p => JValue.str p.1)
  | .str s => .ok (s.toList.map fun c => JValue.str (String.mk [c]))
  | _ => .error (.typeError "object is not iterable")

/-- Python `dict.get(k, d)`. The call sites (`rate.get(...)` on lines
57-58) only reach it with `rate` a dict, because `rate["currency"]`
already succeeded. -/
def pyGetD (v : JValue) (k : String) (d : JValue) : JValue :=
  match v with
  | .obj fs => (fs.lookup k).getD d
  | _ => d

/-- Values usable as Python dict keys (`result.append({date: rates})` on
line 63 raises TypeError when `date` is unhashable). -/
def hashable : JValue → Bool
  | .arr _ => false
  | .obj _ => false
  | _ => true

/-- Insertion into an insertion-ordered Python dict: an existing key keeps
its position and receives the new value, a new key is appended at the end. -/
def dictInsert (fs : List (String × JValue)) (k : String) (v : JValue) :
    List (String × JValue) :=
  match fs with
  | [] => [(k, v)]
  | (k0, v0) :: rest =>
    if k0 = k then (k0, v) :: rest else (k0, v0) :: dictInsert rest k v

/-- Outcome of one `fetch_exchange_rates` task as delivered by
`asyncio.gather(*tasks, return_exceptions=True)`: either the parsed JSON
payload or the raised exception (carrying its message). -/
inductive FetchOutcome where
  | ok (payload : JValue)
  | exn (msg : String)

/-- One element of the result list built on line 63: the single-key dict
mapping the payload's date label to the filtered rates dict. -/
structure DayEntry where
  date : JValue
  rates : List (String × JValue)

/-- The per-currency quote dict built on lines 56-59 of `main.py`. Note
that the sale key of the source is the literal string containing
backquote characters, and that only `saleRate` / `purchaseRate` are
consulted, with `"N/A"` as default. -/
def mkQuote (rate : JValue) : JValue :=
  .obj [("`sale`", pyGetD rate "saleRate" (.str "N/A")),
        ("purchase", pyGetD rate "purchaseRate" (.str "N/A"))]

/-- The dict comprehension of lines 55-62, elaborated left to right with
Python dict-insertion semantics; `acc` is the dict built so far. For each
`rate`, the filter `rate["currency"] in currencies` is evaluated first
(its subscript may raise); membership against a list of strings holds
only for string values. -/
def buildRatesAux (currencies : List String) (acc : List (String × JValue)) :
    List JValue → Except PyErr (List (String × JValue))
  | [] => .ok acc
  | rate :: rest =>
    match pySubscript rate "currency" with
    | .error e => .error e
    | .ok (.str s) =>
      if s ∈ currencies then
        buildRatesAux currencies (dictInsert acc s (mkQuote rate)) rest
      else
        buildRatesAux currencies acc rest
    | .ok _ => buildRatesAux currencies acc rest

/-- The whole dict comprehension of lines 55-62. -/
def buildRates (currencies : List String) (items : List JValue) :
    Except PyErr (List (String × JValue)) :=
  buildRatesAux currencies [] items

/-- The guard on line 53:
`response and "date" in response and "exchangeRate" in response`,
with Python short-circuiting (the membership tests may raise). -/
def respCond (resp : JValue) : Except PyErr Bool :=
  if truthy resp then
    match pyContains resp "date" with
    | .error e => .error e
    | .ok false => .ok false
    | .ok true => pyContains resp "exchangeRate"
  else .ok false

/-- Processing of one gathered outcome in the loop of lines 49-65: an
optional report entry plus an optional printed warning, or a propagating
exception. An exception outcome is absorbed into a warning (lines 50-52);
a payload failing the guard is absorbed into the structure warning (lines
64-65); a payload passing the guard is subscripted, iterated and filtered
(lines 54-63), each step able to raise. -/
def processOne (currencies : List String) :
    FetchOutcome → Except PyErr (Option DayEntry × Option String)
  | .exn msg => .ok (none, some ("Warning: " ++ msg))
  | .ok resp =>
    match respCond resp with
    | .error e => .error e
    | .ok false => .ok (none, some "Warning: Unexpected API response structure.")
    | .ok true =>
      match pySubscript resp "date" with
      | .error e => .error e
      | .ok date =>
        match pySubscript resp "exchangeRate" with
        | .error e => .error e
        | .ok exch =>
          match pyIter exch with
          | .error e => .error e
          | .ok items =>
            match buildRates currencies items with
            | .error e => .error e
            | .ok rates =>
              if hashable date then .ok (some ⟨date, rates⟩, none)
              else .error (.typeError "unhashable type")

/-- The aggregation loop of lines 48-66 over the gathered outcomes, in
gather order, collecting the result entries and the printed warnings; the
first raised exception propagates. -/
def processAll (currencies : List String) :
    List FetchOutcome → Except PyErr (List DayEntry × List String)
  | [] => .ok ([], [])
  | r :: rest =>
    match processOne currencies r with
    | .error e => .error e
    | .ok (eo, lo) =>
      match processAll currencies rest with
      | .error e => .error e
      | .ok (es, ls) => .ok (eo.toList ++ es, lo.toList ++ ls)

/-- The wire-formatted dates computed on line 43 for offsets
`0 .. days-1`, today first (`range(days)` is empty for `days ≤ 0`). -/
def requestedDates (days : Int) (dateOf : Nat → String) : List String :=
  (List.range days.toNat).map dateOf

/-- Message of the `ValueError` raised on line 38. -/
def daysErrMsg : String := "Cannot fetch exchange rates for more than 10 days."

/-- `ExchangeRateService.get_rates` (lines 36-66). Returns the result list
together with the printed warnings, or the propagating exception. -/
def get_rates (days : Int) (currencies : List String) (dateOf : Nat → String)
    (fetch : String → FetchOutcome) : Except PyErr (List DayEntry × List String) :=
  if 10 < days then .error (.valueError daysErrMsg)
  else processAll currencies ((requestedDates days dateOf).map fetch)

/-- The dates `get_rates` actually consults the network for: none at all
when the days check fails, since the `ValueError` is raised before any
task is created. -/
def fetchedDates (days : Int) (dateOf : Nat → String) : List String :=
  if 10 < days then [] else requestedDates days dateOf

/-- The date label a gathered outcome contributes to the report, if any:
`none` for an absorbed exception or a payload failing the guard, otherwise
the payload's `date` value. Mirrors the success path of `processOne`. -/
def reportedDate (r : FetchOutcome) : Option JValue :=
  match r with
  | .exn _ => none
  | .ok p =>
    match respCond p with
    | .ok true =>
      match pySubscript p "date" with
      | .ok d => some d
      | .error _ => none
    | _ => none

/-- A rate entry on which the comprehension's `rate["currency"]` subscript
cannot raise: a dict that has a `currency` key. -/
def entryProcessable (e : JValue) : Bool :=
  match e with
  | .obj gs => (gs.lookup "currency").isSome
  | _ => false

/-- Payloads whose processing in the loop cannot raise, mirroring every
error path of `processOne` on a successful fetch: the guard's membership
tests must not raise (they do on truthy numbers and booleans), and when
the guard passes the payload must be a dict whose `exchangeRate` value is
iterable with every iterated entry processable, and whose `date` value is
hashable. -/
def processable (p : JValue) : Bool :=
  match p with
  | .null => true
  | .bool b => !b
  | .num n => n == 0
  | .str s =>
    !(!(s == "") && hasInfix "date".toList s.toList
        && hasInfix "exchangeRate".toList s.toList)
  | .arr xs =>
    !(!xs.isEmpty && (xs.any fun x => match x with | .str t => t == "date" | _ => false)
        && (xs.any fun x => match x with | .str t => t == "exchangeRate" | _ => false))
  | .obj gs =>
    if gs.isEmpty then true
    else
      match gs.lookup "date", gs.lookup "exchangeRate" with
      | some d, some ex =>
        (match pyIter ex with
         | .ok items => items.all entryProcessable
         | .error _ => false) && hashable d
      | _, _ => true

/-- A structurally valid payload for one day: its processing raises
nothing, prints nothing, and contributes exactly one report entry. -/
def yieldsEntry (currencies : List String) (p : JValue) : Bool :=
  match processOne currencies (.ok p) with
  | .ok (some _, none) => true
  | _ => false

/-- The last rate entry of the list whose `currency` subscript yields
exactly the string `s`; later entries take precedence. -/
def lastEntryFor (s : String) : List JValue → Option JValue
  | [] => none
  | e :: rest =>
    match lastEntryFor s rest with
    | some x => some x
    | none =>
      match pySubscript e "currency" with
      | .ok (.str t) => if t = s then some e else none
      | _ => none

/-- Whether an `Except` computation returned normally. -/
def exceptIsOk : Except PyErr (List DayEntry × List String) → Bool
  | .ok _ => true
  | .error _ => false

/-- Whether a propagating exception is the `ValueError` of the days
check. -/
def isValueError : PyErr → Bool
  | .valueError _ => true
  | _ => false

/-! Helper lemmas about the embedding. -/

theorem processOne_exn (c : List String) (m : String) :
    processOne c (.exn m) = .ok (none, some ("Warning: " ++ m)) := rfl

theorem processAll_append (c : List String) (xs ys : List FetchOutcome)
    (e1 e2 : List DayEntry) (l1 l2 : List String)
    (h1 : processAll c xs = .ok (e1, l1)) (h2 : processAll c ys = .ok (e2, l2)) :
    processAll c (xs ++ ys) = .ok (e1 ++ e2, l1 ++ l2) := by
  induction xs generalizing e1 l1 with
  | nil =>
    simp only [processAll] at h1
    cases h1
    simpa using h2
  | cons r rs ih =>
    simp only [processAll, List.cons_append] at h1 ⊢
    cases hp : processOne c r with
    | error e => rw [hp] at h1; cases h1
    | ok pair =>
      obtain ⟨eo, lo⟩ := pair
      rw [hp] at h1
      cases hq : processAll c rs with
      | error e => rw [hq] at h1; cases h1
      | ok pair2 =>
        obtain ⟨es2, ls2⟩ := pair2
        rw [hq] at h1
        cases h1
        simp only [List.append_eq]
        rw [ih es2 ls2 hq]
        simp [List.append_assoc]

theorem buildRatesAux_ok (c : List String) (items : List JValue)
    (h : ∀ e ∈ items, entryProcessable e = true) :
    ∀ acc, ∃ fs, buildRatesAux c acc items = .ok fs := by
  induction items with
  | nil => intro acc; exact ⟨acc, rfl⟩
  | cons e rest ih =>
    intro acc
    have he : entryProcessable e = true := h e (List.mem_cons_self e rest)
    have hrest : ∀ x ∈ rest, entryProcessable x = true :=
      fun x hx => h x (List.mem_cons_of_mem e hx)
    cases e with
    | obj gs =>
      simp only [entryProcessable] at he
      obtain ⟨v, hv⟩ := Option.isSome_iff_exists.mp he
      simp only [buildRatesAux, pySubscript, hv]
      cases v with
      | str s =>
        by_cases hs : s ∈ c
        · simp only [hs, if_pos]
          exact ih hrest _
        · simp only [hs, if_neg, ite_false]
          exact ih hrest _
      | null => exact ih hrest _
      | bool b => exact ih hrest _
      | num n => exact ih hrest _
      | arr xs => exact ih hrest _
      | obj fs2 => exact ih hrest _
    | null => simp [entryProcessable] at he
    | bool b => simp [entryProcessable] at he
    | num n => simp [entryProcessable] at he
    | str s => simp [entryProcessable] at he
    | arr xs => simp [entryProcessable] at he

theorem processOne_ok_of_processable (c : List String) (p : JValue)
    (h : processable p = true) : ∃ x, processOne c (.ok p) = .ok x := by
  cases p with
  | null => exact ⟨(none, some "Warning: Unexpected API response structure."), rfl⟩
  | bool b =>
    simp only [processable, Bool.not_eq_true'] at h
    subst h
    exact ⟨(none, some "Warning: Unexpected API response structure."), rfl⟩
  | num n =>
    simp only [processable, beq_iff_eq] at h
    subst h
    exact ⟨(none, some "Warning: Unexpected API response structure."), rfl⟩
  | str s =>
    refine ⟨(none, some "Warning: Unexpected API response structure."), ?_⟩
    cases hb1 : (s == "") with
    | true => simp [processOne, respCond, truthy, hb1]
    | false =>
      cases hb2 : hasInfix "date".toList s.toList with
      | false =>
        simp at hb2
        simp [processOne, respCond, truthy, pyContains, hb1, hb2]
      | true =>
        cases hb3 : hasInfix "exchangeRate".toList s.toList with
        | false =>
          simp at hb2 hb3
          simp [processOne, respCond, truthy, pyContains, hb1, hb2, hb3]
        | true =>
          exfalso
          simp only [processable] at h
          rw [hb1, hb2, hb3] at h
          simp at h
  | arr xs =>
    refine ⟨(none, some "Warning: Unexpected API response structure."), ?_⟩
    cases hb1 : xs.isEmpty with
    | true => simp [processOne, respCond, truthy, hb1]
    | false =>
      cases hb2 : xs.any (fun x => match x with | .str t => t == "date" | _ => false) with
      | false => simp [processOne, respCond, truthy, pyContains, hb1, hb2]
      | true =>
        cases hb3 : xs.any (fun x => match x with | .str t => t == "exchangeRate" | _ => false) with
        | false => simp [processOne, respCond, truthy, pyContains, hb1, hb2, hb3]
        | true => simp [processable, hb1, hb2, hb3] at h
  | obj gs =>
    cases hemp : gs.isEmpty with
    | true =>
      refine ⟨(none, some "Warning: Unexpected API response structure."), ?_⟩
      simp [processOne, respCond, truthy, hemp]
    | false =>
      cases hd : gs.lookup "date" with
      | none =>
        refine ⟨(none, some "Warning: Unexpected API response structure."), ?_⟩
        simp [processOne, respCond, truthy, pyContains, hemp, hd]
      | some d =>
        cases hx : gs.lookup "exchangeRate" with
        | none =>
          refine ⟨(none, some "Warning: Unexpected API response structure."), ?_⟩
          simp [processOne, respCond, truthy, pyContains, hemp, hd, hx]
        | some ex =>
          cases hit : pyIter ex with
          | error e => simp [processable, hemp, hd, hx, hit] at h
          | ok items =>
            simp only [processable, hemp, hd, hx, hit, Bool.false_eq_true, if_false,
              Bool.and_eq_true] at h
            obtain ⟨hiter, hhash⟩ := h
            have hall : ∀ e ∈ items, entryProcessable e = true := by
              intro e he
              exact List.all_eq_true.mp hiter e he
            obtain ⟨fs, hfs⟩ := buildRatesAux_ok c items hall []
            refine ⟨(some ⟨d, fs⟩, none), ?_⟩
            simp [processOne, respCond, truthy, pyContains, pySubscript, hemp, hd, hx, hit,
              buildRates, hfs, hhash]

theorem processAll_ok_of_processable (c : List String) (rs : List FetchOutcome)
    (h : ∀ p, FetchOutcome.ok p ∈ rs → processable p = true) :
    ∃ x, processAll c rs = .ok x := by
  induction rs with
  | nil => exact ⟨([], []), rfl⟩
  | cons r rest ih =>
    obtain ⟨⟨es, ls⟩, hrest⟩ := ih (fun p hp => h p (List.mem_cons_of_mem r hp))
    cases r with
    | exn m =>
      exact ⟨(es, ("Warning: " ++ m) :: ls), by simp [processAll, processOne_exn, hrest]⟩
    | ok p =>
      obtain ⟨⟨eo, lo⟩, hone⟩ :=
        processOne_ok_of_processable c p (h p (List.mem_cons_self _ _))
      exact ⟨(eo.toList ++ es, lo.toList ++ ls), by simp [processAll, hone, hrest]⟩

theorem pySubscript_not_valueError (v : JValue) (k : String) (e : PyErr)
    (h : pySubscript v k = .error e) : isValueError e = false := by
  cases v with
  | obj fs =>
    simp only [pySubscript] at h
    cases hl : fs.lookup k with
    | some x => rw [hl] at h; cases h
    | none => rw [hl] at h; cases h; rfl
  | arr xs => cases h; rfl
  | str s => cases h; rfl
  | null => cases h; rfl
  | bool b => cases h; rfl
  | num n => cases h; rfl

theorem pyContains_not_valueError (v : JValue) (k : String) (e : PyErr)
    (h : pyContains v k = .error e) : isValueError e = false := by
  cases v with
  | obj fs => cases h
  | arr xs => cases h
  | str s => cases h
  | null => cases h; rfl
  | bool b => cases h; rfl
  | num n => cases h; rfl

theorem pyIter_not_valueError (v : JValue) (e : PyErr)
    (h : pyIter v = .error e) : isValueError e = false := by
  cases v with
  | obj fs => cases h
  | arr xs => cases h
  | str s => cases h
  | null => cases h; rfl
  | bool b => cases h; rfl
  | num n => cases h; rfl

theorem respCond_not_valueError (p : JValue) (e : PyErr)
    (h : respCond p = .error e) : isValueError e = false := by
  simp only [respCond] at h
  by_cases ht : truthy p = true
  · rw [if_pos ht] at h
    cases hc : pyContains p "date" with
    | error e2 => rw [hc] at h; cases h; exact pyContains_not_valueError p "date" e hc
    | ok b =>
      rw [hc] at h
      cases b with
      | false => cases h
      | true => exact pyContains_not_valueError p "exchangeRate" e h
  · rw [if_neg ht] at h; cases h

theorem buildRatesAux_not_valueError (c : List String) (items : List JValue) :
    ∀ acc e, buildRatesAux c acc items = .error e → isValueError e = false := by
  induction items with
  | nil => intro acc e h; cases h
  | cons rate rest ih =>
    intro acc e h
    simp only [buildRatesAux] at h
    cases hs : pySubscript rate "currency" with
    | error e2 => rw [hs] at h; cases h; exact pySubscript_not_valueError _ _ _ hs
    | ok v =>
      rw [hs] at h
      cases v with
      | str s =>
        simp only [] at h
        by_cases hmem : s ∈ c
        · rw [if_pos hmem] at h; exact ih _ _ h
        · rw [if_neg hmem] at h; exact ih _ _ h
      | null => exact ih _ _ h
      | bool b => exact ih _ _ h
      | num n => exact ih _ _ h
      | arr xs => exact ih _ _ h
      | obj fs => exact ih _ _ h

theorem processOne_not_valueError (c : List String) (r : FetchOutcome) (e : PyErr)
    (h : processOne c r = .error e) : isValueError e = false := by
  cases r with
  | exn m => cases h
  | ok resp =>
    simp only [processOne] at h
    cases hc : respCond resp with
    | error e2 => rw [hc] at h; cases h; exact respCond_not_valueError _ _ hc
    | ok b =>
      rw [hc] at h
      cases b with
      | false => cases h
      | true =>
        simp only [] at h
        cases hd : pySubscript resp "date" with
        | error e2 => rw [hd] at h; cases h; exact pySubscript_not_valueError _ _ _ hd
        | ok date =>
          rw [hd] at h
          simp only [] at h
          cases hx : pySubscript resp "exchangeRate" with
          | error e2 => rw [hx] at h; cases h; exact pySubscript_not_valueError _ _ _ hx
          | ok exch =>
            rw [hx] at h
            simp only [] at h
            cases hi : pyIter exch with
            | error e2 => rw [hi] at h; cases h; exact pyIter_not_valueError _ _ hi
            | ok items =>
              rw [hi] at h
              simp only [] at h
              cases hb : buildRates c items with
              | error e2 =>
                rw [hb] at h; cases h
                exact buildRatesAux_not_valueError c items [] e hb
              | ok rates =>
                rw [hb] at h
                simp only [] at h
                by_cases hh : hashable date = true
                · rw [if_pos hh] at h; cases h
                · rw [if_neg hh] at h; cases h; rfl

theorem processAll_not_valueError (c : List String) (rs : List FetchOutcome) :
    ∀ e, processAll c rs = .error e → isValueError e = false := by
  induction rs with
  | nil => intro e h; cases h
  | cons r rest ih =>
    intro e h
    simp only [processAll] at h
    cases hp : processOne c r with
    | error e2 => rw [hp] at h; cases h; exact processOne_not_valueError c r e hp
    | ok pair =>
      obtain ⟨eo, lo⟩ := pair
      rw [hp] at h
      cases hq : processAll c rest with
      | error e2 => rw [hq] at h; cases h; exact ih e hq
      | ok pair2 => obtain ⟨es, ls⟩ := pair2; rw [hq] at h; cases h

theorem get_rates_congr (days : Int) (c : List String) (dateOf : Nat → String)
    (f1 f2 : String → FetchOutcome)
    (h : ∀ d ∈ fetchedDates days dateOf, f1 d = f2 d) :
    get_rates days c dateOf f1 = get_rates days c dateOf f2 := by
  by_cases hd : 10 < days
  · simp [get_rates, hd]
  · have heq : (requestedDates days dateOf).map f1 = (requestedDates days dateOf).map f2 := by
      apply List.map_congr_left
      intro d hdm
      apply h
      simpa [fetchedDates, hd] using hdm
    simp [get_rates, hd, heq]

theorem processOne_date (c : List String) (r : FetchOutcome) (eo : Option DayEntry)
    (lo : Option String) (h : processOne c r = .ok (eo, lo)) :
    eo.map DayEntry.date = reportedDate r := by
  cases r with
  | exn m => cases h; rfl
  | ok resp =>
    simp only [processOne] at h
    simp only [reportedDate]
    cases hc : respCond resp with
    | error e => rw [hc] at h; cases h
    | ok b =>
      rw [hc] at h
      cases b with
      | false => simp only [] at h; cases h; rfl
      | true =>
        simp only [] at h
        cases hd : pySubscript resp "date" with
        | error e => rw [hd] at h; cases h
        | ok date =>
          rw [hd] at h
          simp only [] at h
          cases hx : pySubscript resp "exchangeRate" with
          | error e => rw [hx] at h; cases h
          | ok exch =>
            rw [hx] at h
            simp only [] at h
            cases hi : pyIter exch with
            | error e => rw [hi] at h; cases h
            | ok items =>
              rw [hi] at h
              simp only [] at h
              cases hb : buildRates c items with
              | error e => rw [hb] at h; cases h
              | ok rates =>
                rw [hb] at h
                simp only [] at h
                by_cases hh : hashable date = true
                · rw [if_pos hh] at h; cases h; rfl
                · rw [if_neg hh] at h; cases h

theorem processAll_dates (c : List String) (rs : List FetchOutcome) :
    ∀ es ls, processAll c rs = .ok (es, ls) →
      es.map DayEntry.date = rs.filterMap reportedDate := by
  induction rs with
  | nil => intro es ls h; cases h; rfl
  | cons r rest ih =>
    intro es ls h
    simp only [processAll] at h
    cases hp : processOne c r with
    | error e => rw [hp] at h; cases h
    | ok pair =>
      obtain ⟨eo, lo⟩ := pair
      rw [hp] at h
      simp only [] at h
      cases hq : processAll c rest with
      | error e => rw [hq] at h; cases h
      | ok pair2 =>
        obtain ⟨es2, ls2⟩ := pair2
        rw [hq] at h
        simp only [] at h
        cases h
        have hdate := processOne_date c r eo lo hp
        rw [List.filterMap_cons, ← hdate]
        cases eo with
        | none => simpa using ih es2 ls2 hq
        | some e0 => simpa using ih es2 ls2 hq

theorem nodup_filterMap_on {α β : Type} (f : α → Option β) (l : List α)
    (hl : l.Nodup)
    (hinj : ∀ a ∈ l, ∀ b ∈ l, ∀ x, f a = some x → f b = some x → a = b) :
    (l.filterMap f).Nodup := by
  induction l with
  | nil => simp
  | cons a t ih =>
    rw [List.filterMap_cons]
    have hl2 := List.nodup_cons.mp hl
    have ih2 := ih hl2.2
      (fun a2 ha2 b hb x h1 h2 =>
        hinj a2 (List.mem_cons_of_mem a ha2) b (List.mem_cons_of_mem a hb) x h1 h2)
    cases hfa : f a with
    | none => exact ih2
    | some x =>
      refine List.nodup_cons.mpr ⟨?_, ih2⟩
      intro hx
      obtain ⟨a2, ha2, hfa2⟩ := List.mem_filterMap.mp hx
      have heq : a = a2 :=
        hinj a (List.mem_cons_self a t) a2 (List.mem_cons_of_mem a ha2) x hfa hfa2
      cases heq
      exact hl2.1 ha2

theorem lookup_dictInsert_self (fs : List (String × JValue)) (k : String) (v : JValue) :
    (dictInsert fs k v).lookup k = some v := by
  induction fs with
  | nil => simp [dictInsert, List.lookup]
  | cons p rest ih =>
    obtain ⟨k0, v0⟩ := p
    by_cases hk : k0 = k
    · subst hk; simp [dictInsert, List.lookup]
    · have hbeq : (k == k0) = false := beq_eq_false_iff_ne.mpr (Ne.symm hk)
      simp [dictInsert, hk, List.lookup, hbeq, ih]

theorem lookup_dictInsert_ne (fs : List (String × JValue)) (k s : String) (v : JValue)
    (hk : k ≠ s) : (dictInsert fs k v).lookup s = fs.lookup s := by
  have hbeq : (s == k) = false := beq_eq_false_iff_ne.mpr (Ne.symm hk)
  induction fs with
  | nil => simp [dictInsert, List.lookup, hbeq]
  | cons p rest ih =>
    obtain ⟨k0, v0⟩ := p
    by_cases h0 : k0 = k
    · subst h0
      simp [dictInsert, List.lookup, hbeq, ih]
    · cases hbeq0 : (s == k0) with
      | true => simp [dictInsert, h0, List.lookup, hbeq0]
      | false => simp [dictInsert, h0, List.lookup, hbeq0, ih]

theorem mem_dictInsert (fs : List (String × JValue)) (k : String) (v : JValue)
    (a : String) (b : JValue) (h : (a, b) ∈ dictInsert fs k v) :
    (a, b) ∈ fs ∨ a = k := by
  induction fs with
  | nil =>
    simp only [dictInsert, List.mem_singleton, Prod.mk.injEq] at h
    exact Or.inr h.1
  | cons p rest ih =>
    obtain ⟨k0, v0⟩ := p
    by_cases h0 : k0 = k
    · subst h0
      rw [dictInsert, if_pos rfl] at h
      rcases List.mem_cons.mp h with h1 | h1
      · rw [Prod.mk.injEq] at h1
        exact Or.inr h1.1
      · exact Or.inl (List.mem_cons_of_mem _ h1)
    · rw [dictInsert, if_neg h0] at h
      rcases List.mem_cons.mp h with h1 | h1
      · exact Or.inl (List.mem_cons.mpr (Or.inl h1))
      · rcases ih h1 with h2 | h2
        · exact Or.inl (List.mem_cons_of_mem _ h2)
        · exact Or.inr h2

theorem mem_keys_dictInsert (fs : List (String × JValue)) (k : String) (v : JValue)
    (a : String) (h : a ∈ (dictInsert fs k v).map Prod.fst) :
    a ∈ fs.map Prod.fst ∨ a = k := by
  obtain ⟨⟨a1, b1⟩, hmem, heq⟩ := List.mem_map.mp h
  cases heq
  rcases mem_dictInsert fs k v a1 b1 hmem with h2 | h2
  · exact Or.inl (List.mem_map.mpr ⟨(a1, b1), h2, rfl⟩)
  · exact Or.inr h2

theorem nodup_keys_dictInsert (fs : List (String × JValue)) (k : String) (v : JValue)
    (h : (fs.map Prod.fst).Nodup) : ((dictInsert fs k v).map Prod.fst).Nodup := by
  induction fs with
  | nil => simp [dictInsert]
  | cons p rest ih =>
    obtain ⟨k0, v0⟩ := p
    simp only [List.map_cons, List.nodup_cons] at h
    by_cases h0 : k0 = k
    · subst h0
      rw [dictInsert, if_pos rfl]
      simp only [List.map_cons, List.nodup_cons]
      exact ⟨h.1, h.2⟩
    · rw [dictInsert, if_neg h0]
      simp only [List.map_cons, List.nodup_cons]
      refine ⟨?_, ih h.2⟩
      intro hx
      rcases mem_keys_dictInsert rest k v k0 hx with h2 | h2
      · exact h.1 h2
      · exact h0 h2

theorem buildRatesAux_keys (c : List String) (items : List JValue) :
    ∀ acc fs, buildRatesAux c acc items = .ok fs →
      (∀ k v, (k, v) ∈ acc → k ∈ c) → ∀ k v, (k, v) ∈ fs → k ∈ c := by
  induction items with
  | nil => intro acc fs h hacc; cases h; exact hacc
  | cons rate rest ih =>
    intro acc fs h hacc
    simp only [buildRatesAux] at h
    cases hs : pySubscript rate "currency" with
    | error e => rw [hs] at h; cases h
    | ok v =>
      rw [hs] at h
      cases v with
      | str s =>
        simp only [] at h
        by_cases hmem : s ∈ c
        · rw [if_pos hmem] at h
          refine ih _ _ h ?_
          intro k v hkv
          rcases mem_dictInsert acc s (mkQuote rate) k v hkv with hin | heq
          · exact hacc k v hin
          · cases heq; exact hmem
        · rw [if_neg hmem] at h
          exact ih _ _ h hacc
      | null => exact ih _ _ h hacc
      | bool b => exact ih _ _ h hacc
      | num n => exact ih _ _ h hacc
      | arr xs => exact ih _ _ h hacc
      | obj gs => exact ih _ _ h hacc

theorem buildRatesAux_nodup (c : List String) (items : List JValue) :
    ∀ acc fs, buildRatesAux c acc items = .ok fs →
      (acc.map Prod.fst).Nodup → (fs.map Prod.fst).Nodup := by
  induction items with
  | nil => intro acc fs h hacc; cases h; exact hacc
  | cons rate rest ih =>
    intro acc fs h hacc
    simp only [buildRatesAux] at h
    cases hs : pySubscript rate "currency" with
    | error e => rw [hs] at h; cases h
    | ok v =>
      rw [hs] at h
      cases v with
      | str s =>
        simp only [] at h
        by_cases hmem : s ∈ c
        · rw [if_pos hmem] at h
          exact ih _ _ h (nodup_keys_dictInsert acc s (mkQuote rate) hacc)
        · rw [if_neg hmem] at h
          exact ih _ _ h hacc
      | null => exact ih _ _ h hacc
      | bool b => exact ih _ _ h hacc
      | num n => exact ih _ _ h hacc
      | arr xs => exact ih _ _ h hacc
      | obj gs => exact ih _ _ h hacc

theorem buildRatesAux_lookup (c : List String) (s : String) (hs : s ∈ c)
    (items : List JValue) :
    ∀ acc fs, buildRatesAux c acc items = .ok fs →
      fs.lookup s = (match lastEntryFor s items with
                     | some e => some (mkQuote e)
                     | none => acc.lookup s) := by
  induction items with
  | nil => intro acc fs h; cases h; rfl
  | cons rate rest ih =>
    intro acc fs h
    simp only [buildRatesAux] at h
    simp only [lastEntryFor]
    cases hsub : pySubscript rate "currency" with
    | error e => rw [hsub] at h; cases h
    | ok v =>
      rw [hsub] at h
      cases v with
      | str t =>
        simp only [] at h
        by_cases hmem : t ∈ c
        · rw [if_pos hmem] at h
          have hrec := ih _ _ h
          cases hlast : lastEntryFor s rest with
          | some e2 => rw [hlast] at hrec; simpa using hrec
          | none =>
            rw [hlast] at hrec
            rw [hrec]
            by_cases hts : t = s
            · subst hts
              rw [lookup_dictInsert_self]
              simp
            · rw [lookup_dictInsert_ne acc t s (mkQuote rate) hts]
              simp [hts]
        · rw [if_neg hmem] at h
          have hrec := ih _ _ h
          cases hlast : lastEntryFor s rest with
          | some e2 => rw [hlast] at hrec; simpa using hrec
          | none =>
            rw [hlast] at hrec
            have hts : t ≠ s := fun he => hmem (he ▸ hs)
            simp only [if_neg hts]
            exact hrec
      | null =>
        have hrec := ih _ _ h
        cases hlast : lastEntryFor s rest with
        | some e2 => rw [hlast] at hrec; simpa using hrec
        | none => rw [hlast] at hrec; simpa using hrec
      | bool b =>
        have hrec := ih _ _ h
        cases hlast : lastEntryFor s rest with
        | some e2 => rw [hlast] at hrec; simpa using hrec
        | none => rw [hlast] at hrec; simpa using hrec
      | num n =>
        have hrec := ih _ _ h
        cases hlast : lastEntryFor s rest with
        | some e2 => rw [hlast] at hrec; simpa using hrec
        | none => rw [hlast] at hrec; simpa using hrec
      | arr xs =>
        have hrec := ih _ _ h
        cases hlast : lastEntryFor s rest with
        | some e2 => rw [hlast] at hrec; simpa using hrec
        | none => rw [hlast] at hrec; simpa using hrec
      | obj gs =>
        have hrec := ih _ _ h
        cases hlast : lastEntryFor s rest with
        | some e2 => rw [hlast] at hrec; simpa using hrec
        | none => rw [hlast] at hrec; simpa using hrec

theorem processOne_entry_rates (c : List String) (r : FetchOutcome) (e0 : DayEntry)
    (lo : Option String) (h : processOne c r = .ok (some e0, lo)) :
    ∃ items, buildRates c items = .ok e0.rates := by
  cases r with
  | exn m => cases h
  | ok resp =>
    simp only [processOne] at h
    cases hc : respCond resp with
    | error e => rw [hc] at h; cases h
    | ok b =>
      rw [hc] at h
      cases b with
      | false => simp only [] at h; cases h
      | true =>
        simp only [] at h
        cases hd : pySubscript resp "date" with
        | error e => rw [hd] at h; cases h
        | ok date =>
          rw [hd] at h
          simp only [] at h
          cases hx : pySubscript resp "exchangeRate" with
          | error e => rw [hx] at h; cases h
          | ok exch =>
            rw [hx] at h
            simp only [] at h
            cases hi : pyIter exch with
            | error e => rw [hi] at h; cases h
            | ok items =>
              rw [hi] at h
              simp only [] at h
              cases hb : buildRates c items with
              | error e => rw [hb] at h; cases h
              | ok rates =>
                rw [hb] at h
                simp only [] at h
                by_cases hh : hashable date = true
                · rw [if_pos hh] at h
                  cases h
                  exact ⟨items, hb⟩
                · rw [if_neg hh] at h; cases h

theorem processAll_entry_rates (c : List String) (rs : List FetchOutcome) :
    ∀ es ls, processAll c rs = .ok (es, ls) →
      ∀ e ∈ es, ∃ items, buildRates c items = .ok e.rates := by
  induction rs with
  | nil => intro es ls h; cases h; intro e he; cases he
  | cons r rest ih =>
    intro es ls h
    simp only [processAll] at h
    cases hp : processOne c r with
    | error e => rw [hp] at h; cases h
    | ok pair =>
      obtain ⟨eo, lo⟩ := pair
      rw [hp] at h
      simp only [] at h
      cases hq : processAll c rest with
      | error e => rw [hq] at h; cases h
      | ok pair2 =>
        obtain ⟨es2, ls2⟩ := pair2
        rw [hq] at h
        simp only [] at h
        cases h
        intro e he
        rcases List.mem_append.mp he with h1 | h1
        · cases eo with
          | none => cases h1
          | some e1 =>
            have he1 : e = e1 := by simpa using h1
            subst he1
            exact processOne_entry_rates c r e lo hp
        · exact ih es2 ls2 hq e h1

theorem yieldsEntry_spec (c : List String) (p : JValue) (h : yieldsEntry c p = true) :
    ∃ e, processOne c (.ok p) = .ok (some e, none) := by
  unfold yieldsEntry at h
  cases hp : processOne c (.ok p) with
  | error e => rw [hp] at h; cases h
  | ok pair =>
    obtain ⟨eo, lo⟩ := pair
    rw [hp] at h
    cases eo with
    | none => simp only [] at h; cases h
    | some e1 =>
      cases lo with
      | none => exact ⟨e1, rfl⟩
      | some l1 => simp only [] at h; cases h

theorem processAll_all_valid (c : List String) (rs : List FetchOutcome)
    (h : ∀ r ∈ rs, ∃ p, r = FetchOutcome.ok p ∧ yieldsEntry c p = true) :
    ∃ es, processAll c rs = .ok (es, []) ∧ es.length = rs.length := by
  induction rs with
  | nil => exact ⟨[], rfl, rfl⟩
  | cons r rest ih =>
    obtain ⟨es, hrest, hlen⟩ := ih (fun x hx => h x (List.mem_cons_of_mem r hx))
    obtain ⟨p, rfl, hy⟩ := h r (List.mem_cons_self r rest)
    obtain ⟨e1, hp⟩ := yieldsEntry_spec c p hy
    refine ⟨e1 :: es, ?_, ?_⟩
    · simp [processAll, hp, hrest]
    · simp [hlen]

/-! Claim theorems. -/

/-- C1 counterexample: for `days = 0` and for a negative `days`, `get_rates`
does not fail with the days-out-of-range configuration error as the claim
requires; it returns normally with the empty report (the code's check on
line 37 is only `days > 10`). -/
theorem C1_counterexample :
    get_rates 0 ["USD"] (fun _ => "01.01.2024") (fun _ => FetchOutcome.exn "net") =
      .ok ([], []) ∧
    get_rates (-3) ["USD"] (fun _ => "01.01.2024") (fun _ => FetchOutcome.exn "net") =
      .ok ([], []) :=
  ⟨rfl, rfl⟩

/-- C1 amended: `get_rates` raises the days-out-of-range configuration
error exactly when `days > 10`, before any fetch is issued (the fetched
date list is empty in that case); for every `days ≤ 10` — including 0 and
negative values — no configuration `ValueError` is ever raised, and for
`days ≤ 0` zero fetches are issued and the empty report is returned. -/
theorem C1_days_validation (days : Int) (c : List String) (dateOf : Nat → String)
    (fetch : String → FetchOutcome) :
    (10 < days →
      get_rates days c dateOf fetch = .error (.valueError daysErrMsg) ∧
      fetchedDates days dateOf = []) ∧
    (days ≤ 10 → ∀ m, get_rates days c dateOf fetch ≠ .error (.valueError m)) ∧
    (days ≤ 0 →
      get_rates days c dateOf fetch = .ok ([], []) ∧ fetchedDates days dateOf = []) := by
  refine ⟨?_, ?_, ?_⟩
  · intro hd
    exact ⟨by simp [get_rates, hd], by simp [fetchedDates, hd]⟩
  · intro hd m hcontra
    have hnot : ¬ (10 < days) := by omega
    rw [get_rates, if_neg hnot] at hcontra
    have hval := processAll_not_valueError c ((requestedDates days dateOf).map fetch) _ hcontra
    simp [isValueError] at hval
  · intro hd
    have hnot : ¬ (10 < days) := by omega
    have hz : days.toNat = 0 := by omega
    constructor
    · rw [get_rates, if_neg hnot]
      simp [requestedDates, hz, processAll]
    · simp [fetchedDates, hnot, requestedDates, hz]

/-- C1 witness: the amended days validation applied at days = 11 and
days = 0. -/
theorem C1_days_validation_witness :
    get_rates 11 ["USD"] (fun _ => "01.01.2024") (fun _ => FetchOutcome.exn "net") =
      .error (.valueError daysErrMsg) ∧
    fetchedDates 11 (fun _ => "01.01.2024") = [] ∧
    get_rates 0 ["USD"] (fun _ => "01.01.2024") (fun _ => FetchOutcome.exn "net") =
      .ok ([], []) := by
  have h1 := (C1_days_validation 11 ["USD"] (fun _ => "01.01.2024")
    (fun _ => FetchOutcome.exn "net")).1 (by norm_num)
  have h2 := (C1_days_validation 0 ["USD"] (fun _ => "01.01.2024")
    (fun _ => FetchOutcome.exn "net")).2.2 (by norm_num)
  exact ⟨h1.1, h1.2, h2.1⟩

/-- C2 counterexample: with `days = 1` and a successful fetch whose payload
has the expected top-level keys but whose single rate entry lacks the
`currency` key, the `KeyError` raised by `rate["currency"]` in the dict
comprehension propagates to the caller, contradicting the claim that no
exception triggered by a payload's contents escapes `get_rates`. -/
theorem C2_counterexample :
    get_rates 1 ["USD"] (fun _ => "01.01.2024")
      (fun _ => FetchOutcome.ok (JValue.obj
        [("date", JValue.str "01.01.2024"),
         ("exchangeRate", JValue.arr [JValue.obj []])])) =
    .error (.keyError "currency") := rfl

/-- C2 amended: for `days` in [1, 10] and any mix of per-day outcomes,
`get_rates` returns normally provided every successful payload is
processable (its guard membership tests cannot raise, and when the guard
passes, every iterated rate entry is a dict with a `currency` key and the
date label is hashable); in particular per-day fetch failures of any kind
and in any number are always absorbed and never propagate. -/
theorem C2_fetch_errors_absorbed (days : Int) (c : List String) (dateOf : Nat → String)
    (fetch : String → FetchOutcome) (h1 : 1 ≤ days) (h2 : days ≤ 10)
    (hp : ∀ d ∈ fetchedDates days dateOf, ∀ p, fetch d = FetchOutcome.ok p →
      processable p = true) :
    exceptIsOk (get_rates days c dateOf fetch) = true := by
  have hnot : ¬ (10 < days) := by omega
  rw [get_rates, if_neg hnot]
  have hall : ∀ p, FetchOutcome.ok p ∈ (requestedDates days dateOf).map fetch →
      processable p = true := by
    intro p hmem
    obtain ⟨d, hd, hfd⟩ := List.mem_map.mp hmem
    exact hp d (by rw [fetchedDates, if_neg hnot]; exact hd) p hfd
  obtain ⟨x, hx⟩ := processAll_ok_of_processable c _ hall
  rw [hx]
  rfl

/-- C2 witness: one day whose fetch raises; the failure is absorbed and
the call returns normally. -/
theorem C2_fetch_errors_absorbed_witness :
    exceptIsOk (get_rates 1 ["USD"] (fun _ => "01.01.2024")
      (fun _ => FetchOutcome.exn "boom")) = true := by
  refine C2_fetch_errors_absorbed 1 ["USD"] (fun _ => "01.01.2024")
    (fun _ => FetchOutcome.exn "boom") (by norm_num) (by norm_num) ?_
  intro d hd p hp
  cases hp

/-- C3 counterexample: a payload entry carrying only the
`saleRateNB`/`purchaseRateNB` schema is not read: the quote falls back to
"N/A" even though the NB fields are present, contradicting the claim that
both schema versions are tolerated. -/
theorem C3_counterexample :
    get_rates 1 ["USD"] (fun _ => "01.01.2024")
      (fun _ => FetchOutcome.ok (JValue.obj
        [("date", JValue.str "01.01.2024"),
         ("exchangeRate", JValue.arr
           [JValue.obj [("currency", JValue.str "USD"),
                        ("saleRateNB", JValue.num 27),
                        ("purchaseRateNB", JValue.num 26)]])])) =
    .ok ([⟨JValue.str "01.01.2024",
           [("USD", JValue.obj [("`sale`", JValue.str "N/A"),
                                ("purchase", JValue.str "N/A")])]⟩], []) := rfl

/-- C3 amended: the sale and purchase values of a resulting quote are taken
from the `saleRate` / `purchaseRate` fields only, and the "N/A" marker is
used exactly when the respective field is absent from the entry, regardless
of any `saleRateNB` / `purchaseRateNB` fields. -/
theorem C3_sale_purchase_fields (c : List String) (dateOf : Nat → String)
    (dlabel : String) (gs : List (String × JValue)) (s : String)
    (hcur : gs.lookup "currency" = some (JValue.str s)) (hmem : s ∈ c) :
    get_rates 1 c dateOf
      (fun _ => FetchOutcome.ok (JValue.obj
        [("date", JValue.str dlabel),
         ("exchangeRate", JValue.arr [JValue.obj gs])])) =
    .ok ([⟨JValue.str dlabel,
           [(s, JValue.obj
              [("`sale`", (gs.lookup "saleRate").getD (JValue.str "N/A")),
               ("purchase", (gs.lookup "purchaseRate").getD (JValue.str "N/A"))])]⟩],
         []) := by
  rw [get_rates, if_neg (by norm_num)]
  simp [requestedDates, processAll, processOne, respCond, truthy, pyContains, pySubscript,
    pyIter, buildRates, buildRatesAux, hcur, hmem, mkQuote, pyGetD, dictInsert, hashable,
    List.lookup]

/-- C3 witness: an entry with `saleRate` present and `purchaseRate` absent
yields the sale value from `saleRate` and "N/A" for purchase. -/
theorem C3_sale_purchase_fields_witness :
    get_rates 1 ["USD"] (fun _ => "01.01.2024")
      (fun _ => FetchOutcome.ok (JValue.obj
        [("date", JValue.str "01.01.2024"),
         ("exchangeRate", JValue.arr
           [JValue.obj [("currency", JValue.str "USD"), ("saleRate", JValue.num 27)]])])) =
    .ok ([⟨JValue.str "01.01.2024",
           [("USD", JValue.obj [("`sale`", JValue.num 27),
                                ("purchase", JValue.str "N/A")])]⟩], []) := by
  have h := C3_sale_purchase_fields ["USD"] (fun _ => "01.01.2024") "01.01.2024"
    [("currency", JValue.str "USD"), ("saleRate", JValue.num 27)] "USD" rfl
    (by simp)
  exact h

/-- C4 counterexample: with two requested days mapped to distinct request
dates but a source that reports the same `date` label in both payloads,
the report has two entries with equal dates — the output dates come from
the payloads (line 54), not from the request, so distinctness fails. -/
theorem C4_counterexample :
    get_rates 2 ["USD"] (fun i => toString i)
      (fun _ => FetchOutcome.ok (JValue.obj
        [("date", JValue.str "01.01.2020"), ("exchangeRate", JValue.arr [])])) =
      .ok ([⟨JValue.str "01.01.2020", []⟩, ⟨JValue.str "01.01.2020", []⟩], []) ∧
    ¬ ([JValue.str "01.01.2020", JValue.str "01.01.2020"].Nodup) := by
  constructor
  · rfl
  · intro hn
    exact (List.nodup_cons.mp hn).1 (List.mem_singleton_self _)

/-- C4 amended: for `days` in [1, 10], a normally-returned report has at
most `days` entries; the entry dates are, in request order, exactly the
payload-reported dates of the contributing fetches (so the output order is
the request order, independent of completion order); and the dates are
pairwise distinct under the additional hypotheses that `dateOf` is
injective on the requested offsets and that every contributing payload
reports the date it was requested for. -/
theorem C4_report_shape (days : Int) (c : List String) (dateOf : Nat → String)
    (fetch : String → FetchOutcome) (res : List DayEntry) (logs : List String)
    (h1 : 1 ≤ days) (h2 : days ≤ 10)
    (h : get_rates days c dateOf fetch = .ok (res, logs)) :
    res.length ≤ days.toNat ∧
    res.map DayEntry.date =
      ((requestedDates days dateOf).map fetch).filterMap reportedDate ∧
    ((∀ i j, i < days.toNat → j < days.toNat → dateOf i = dateOf j → i = j) →
     (∀ d x, reportedDate (fetch d) = some x → x = JValue.str d) →
     (res.map DayEntry.date).Nodup) := by
  have hnot : ¬ (10 < days) := by omega
  rw [get_rates, if_neg hnot] at h
  have hdates := processAll_dates c _ res logs h
  refine ⟨?_, hdates, ?_⟩
  · have hlen : (res.map DayEntry.date).length ≤
        ((requestedDates days dateOf).map fetch).length := by
      rw [hdates]
      exact List.length_filterMap_le _ _
    simpa [requestedDates] using hlen
  · intro hinj hecho
    rw [hdates, requestedDates, List.map_map, List.filterMap_map]
    apply nodup_filterMap_on
    · exact List.nodup_range days.toNat
    · intro a ha b hb x hfa hfb
      have hxa : x = JValue.str (dateOf a) := hecho (dateOf a) x hfa
      have hxb : x = JValue.str (dateOf b) := hecho (dateOf b) x hfb
      have hsteq : JValue.str (dateOf a) = JValue.str (dateOf b) := by
        rw [← hxa, ← hxb]
      have hdeq : dateOf a = dateOf b := by injection hsteq
      exact hinj a b (List.mem_range.mp ha) (List.mem_range.mp hb) hdeq

/-- C4 witness: two days against a source echoing the requested date; the
report's dates are pairwise distinct. -/
theorem C4_report_shape_witness :
    (([⟨JValue.str "0", ([] : List (String × JValue))⟩,
       ⟨JValue.str "1", []⟩] : List DayEntry).map DayEntry.date).Nodup := by
  have h := (C4_report_shape 2 ["USD"] (fun i => toString i)
    (fun d => FetchOutcome.ok (JValue.obj
      [("date", JValue.str d), ("exchangeRate", JValue.arr [])]))
    [⟨JValue.str "0", []⟩, ⟨JValue.str "1", []⟩] []
    (by norm_num) (by norm_num) rfl).2.2
  apply h
  · intro i j hi hj hij
    norm_num at hi hj
    interval_cases i <;> interval_cases j <;> first
      | rfl
      | exact absurd hij (by decide)
  · intro d x hx
    have hrd : reportedDate (FetchOutcome.ok (JValue.obj
        [("date", JValue.str d), ("exchangeRate", JValue.arr [])])) =
        some (JValue.str d) := rfl
    rw [hrd] at hx
    cases hx
    rfl

/-- C5 confirmed: for `days` in [1, 10], if the gathered outcomes are one
fetch failure amid otherwise structurally valid successful payloads, then
`get_rates` returns normally, the report has exactly `days - 1` entries,
and the failure's warning is printed. -/
theorem C5_single_failure (days : Int) (c : List String) (dateOf : Nat → String)
    (fetch : String → FetchOutcome) (msg : String) (as bs : List FetchOutcome)
    (h1 : 1 ≤ days) (h2 : days ≤ 10)
    (hsplit : (requestedDates days dateOf).map fetch = as ++ FetchOutcome.exn msg :: bs)
    (ha : ∀ r ∈ as, ∃ p, r = FetchOutcome.ok p ∧ yieldsEntry c p = true)
    (hb : ∀ r ∈ bs, ∃ p, r = FetchOutcome.ok p ∧ yieldsEntry c p = true) :
    ∃ res logs, get_rates days c dateOf fetch = .ok (res, logs) ∧
      res.length + 1 = days.toNat ∧ ("Warning: " ++ msg) ∈ logs := by
  have hnot : ¬ (10 < days) := by omega
  obtain ⟨eas, hpas, hlas⟩ := processAll_all_valid c as ha
  obtain ⟨ebs, hpbs, hlbs⟩ := processAll_all_valid c bs hb
  have hmid : processAll c (FetchOutcome.exn msg :: bs) =
      .ok (ebs, ["Warning: " ++ msg]) := by
    simp [processAll, processOne_exn, hpbs]
  have hall := processAll_append c as (FetchOutcome.exn msg :: bs) eas ebs []
    ["Warning: " ++ msg] hpas hmid
  refine ⟨eas ++ ebs, [] ++ ["Warning: " ++ msg], ?_, ?_, ?_⟩
  · rw [get_rates, if_neg hnot, hsplit]
    exact hall
  · have hlen : as.length + (bs.length + 1) = days.toNat := by
      have hrd : ((requestedDates days dateOf).map fetch).length = days.toNat := by
        simp [requestedDates]
      rw [hsplit] at hrd
      simpa using hrd
    simp only [List.length_append, hlas, hlbs]
    omega
  · simp

/-- C5 witness: two days, the second fetch fails; the report has one entry
and the warning is printed. -/
theorem C5_single_failure_witness :
    ∃ res logs,
      get_rates 2 ["USD"] (fun i => toString i)
        (fun d => if d = "1" then FetchOutcome.exn "boom"
                  else FetchOutcome.ok (JValue.obj
                    [("date", JValue.str d), ("exchangeRate", JValue.arr [])])) =
        .ok (res, logs) ∧
      res.length + 1 = (2 : Int).toNat ∧ ("Warning: " ++ "boom") ∈ logs := by
  refine C5_single_failure 2 ["USD"] (fun i => toString i) _ "boom"
    [FetchOutcome.ok (JValue.obj
      [("date", JValue.str "0"), ("exchangeRate", JValue.arr [])])] []
    (by norm_num) (by norm_num) rfl ?_ ?_
  · intro r hr
    rw [List.mem_singleton.mp hr]
    exact ⟨_, rfl, rfl⟩
  · intro r hr
    cases hr

/-- C6: the code bug — at a well-formed payload with a requested currency,
the per-currency quote dict produced by lines 56-59 uses the literal key
containing backquote characters for the sale value, while the spec requires
the two keys to be exactly sale and purchase. -/
theorem C6_sale_key_backquotes :
    (get_rates 1 ["USD"] (fun _ => "02.02.2024")
      (fun _ => FetchOutcome.ok (JValue.obj
        [("date", JValue.str "02.02.2024"),
         ("exchangeRate", JValue.arr
           [JValue.obj [("currency", JValue.str "USD"),
                        ("saleRate", JValue.num 27),
                        ("purchaseRate", JValue.num 26)]])])) =
      .ok ([⟨JValue.str "02.02.2024",
             [("USD", JValue.obj [("`sale`", JValue.num 27),
                                  ("purchase", JValue.num 26)])]⟩], [])) ∧
    ("`sale`" : String) ≠ "sale" := by
  exact ⟨rfl, by decide⟩

/-- C7 confirmed: in every report returned by `get_rates`, every currency
key of every day's rates dict is one of the requested currencies (entries
with other codes are absent); and a requested entry lacking a `saleRate`
field yields, without raising, a quote whose sale value is the "N/A"
marker (with the purchase value from `purchaseRate` when present). -/
theorem C7_currency_filter (days : Int) (c : List String) (dateOf : Nat → String)
    (fetch : String → FetchOutcome) (res : List DayEntry) (logs : List String)
    (h : get_rates days c dateOf fetch = .ok (res, logs)) :
    (∀ e ∈ res, ∀ k v, (k, v) ∈ e.rates → k ∈ c) ∧
    (∀ gs s, gs.lookup "currency" = some (JValue.str s) → s ∈ c →
      gs.lookup "saleRate" = none →
      buildRates c [JValue.obj gs] =
        .ok [(s, JValue.obj
          [("`sale`", JValue.str "N/A"),
           ("purchase", (gs.lookup "purchaseRate").getD (JValue.str "N/A"))])]) := by
  constructor
  · intro e he k v hkv
    by_cases hd10 : 10 < days
    · rw [get_rates, if_pos hd10] at h; cases h
    · rw [get_rates, if_neg hd10] at h
      obtain ⟨items, hitems⟩ := processAll_entry_rates c _ res logs h e he
      exact buildRatesAux_keys c items [] e.rates hitems
        (by intro k2 v2 h2; cases h2) k v hkv
  · intro gs s hcur hsmem hsale
    simp [buildRates, buildRatesAux, pySubscript, hcur, hsmem, mkQuote, pyGetD, hsale,
      dictInsert]

/-- C7 witness: a one-entry payload with a requested currency and no
saleRate field produces the "N/A" sale marker, and the produced key is
among the requested currencies. -/
theorem C7_currency_filter_witness :
    (("USD" : String) ∈ (["USD"] : List String)) ∧
    buildRates ["USD"] [JValue.obj [("currency", JValue.str "USD")]] =
      .ok [("USD", JValue.obj [("`sale`", JValue.str "N/A"),
                               ("purchase", JValue.str "N/A")])] := by
  have h := C7_currency_filter 1 ["USD"] (fun _ => "01.01.2024")
    (fun _ => FetchOutcome.ok (JValue.obj
      [("date", JValue.str "01.01.2024"),
       ("exchangeRate", JValue.arr [JValue.obj [("currency", JValue.str "USD")]])]))
    [⟨JValue.str "01.01.2024",
      [("USD", JValue.obj [("`sale`", JValue.str "N/A"),
                           ("purchase", JValue.str "N/A")])]⟩] [] rfl
  constructor
  · exact h.1 _ (List.mem_singleton_self _) "USD"
      (JValue.obj [("`sale`", JValue.str "N/A"), ("purchase", JValue.str "N/A")])
      (List.mem_singleton_self _)
  · exact h.2 [("currency", JValue.str "USD")] "USD" rfl (by simp) rfl

/-- C8 confirmed: in every report returned by `get_rates`, the currency
keys within one day's rates dict are pairwise distinct, whatever the
payloads contained — the dict built by the comprehension keeps one binding
per key. -/
theorem C8_unique_currency_codes (days : Int) (c : List String) (dateOf : Nat → String)
    (fetch : String → FetchOutcome) (res : List DayEntry) (logs : List String)
    (h : get_rates days c dateOf fetch = .ok (res, logs)) :
    ∀ e ∈ res, (e.rates.map Prod.fst).Nodup := by
  intro e he
  by_cases hd10 : 10 < days
  · rw [get_rates, if_pos hd10] at h; cases h
  · rw [get_rates, if_neg hd10] at h
    obtain ⟨items, hitems⟩ := processAll_entry_rates c _ res logs h e he
    exact buildRatesAux_nodup c items [] e.rates hitems (by simp)

/-- C8 witness: the unique-keys invariant applied to a concrete run whose
payload lists the same currency twice. -/
theorem C8_unique_currency_codes_witness :
    ((([("USD", JValue.obj [("`sale`", JValue.num 2), ("purchase", JValue.str "N/A")])] :
        List (String × JValue)).map Prod.fst).Nodup) := by
  have h := C8_unique_currency_codes 1 ["USD"] (fun _ => "01.01.2024")
    (fun _ => FetchOutcome.ok (JValue.obj
      [("date", JValue.str "01.01.2024"),
       ("exchangeRate", JValue.arr
         [JValue.obj [("currency", JValue.str "USD"), ("saleRate", JValue.num 1)],
          JValue.obj [("currency", JValue.str "USD"), ("saleRate", JValue.num 2)]])]))
    [⟨JValue.str "01.01.2024",
      [("USD", JValue.obj [("`sale`", JValue.num 2), ("purchase", JValue.str "N/A")])]⟩]
    [] rfl
  exact h _ (List.mem_singleton_self _)

/-- C9 confirmed: `get_rates` is deterministic — its result is a function
of the arguments and of the stub's outcomes on the fetched dates alone, so
two calls with identical arguments against the same fixed stub (or any
stub agreeing on the fetched dates) produce identical reports. -/
theorem C9_deterministic (days : Int) (c : List String) (dateOf : Nat → String)
    (fetch1 fetch2 : String → FetchOutcome)
    (h : ∀ d ∈ fetchedDates days dateOf, fetch1 d = fetch2 d) :
    get_rates days c dateOf fetch1 = get_rates days c dateOf fetch2 :=
  get_rates_congr days c dateOf fetch1 fetch2 h

/-- C9 witness: two runs against the same fixed stub coincide. -/
theorem C9_deterministic_witness :
    get_rates 1 ["USD"] (fun _ => "01.01.2024") (fun _ => FetchOutcome.exn "e") =
    get_rates 1 ["USD"] (fun _ => "01.01.2024") (fun _ => FetchOutcome.exn "e") :=
  C9_deterministic 1 ["USD"] (fun _ => "01.01.2024") (fun _ => FetchOutcome.exn "e")
    (fun _ => FetchOutcome.exn "e") (fun _ _ => rfl)

/-- C10 confirmed: when a payload's rate list binds the same requested
currency code more than once, the day's dict holds exactly one binding for
that code, whose quote is built from the last such entry in the list
(later entries overwrite earlier ones); and the dict's keys are unique. -/
theorem C10_last_duplicate_wins (c : List String) (items : List JValue)
    (fs : List (String × JValue)) (s : String) (hs : s ∈ c)
    (h : buildRates c items = .ok fs) :
    fs.lookup s = (lastEntryFor s items).map mkQuote ∧
    (fs.map Prod.fst).Nodup := by
  constructor
  · have hlk := buildRatesAux_lookup c s hs items [] fs h
    cases hlast : lastEntryFor s items with
    | some e => rw [hlast] at hlk; simpa using hlk
    | none => rw [hlast] at hlk; simpa using hlk
  · exact buildRatesAux_nodup c items [] fs h (by simp)

/-- C10 witness: two entries for USD; the stored quote is the one built
from the second (last) entry. -/
theorem C10_last_duplicate_wins_witness :
    (([("USD", JValue.obj [("`sale`", JValue.num 2), ("purchase", JValue.str "N/A")])] :
        List (String × JValue)).lookup "USD" =
      (lastEntryFor "USD"
        [JValue.obj [("currency", JValue.str "USD"), ("saleRate", JValue.num 1)],
         JValue.obj [("currency", JValue.str "USD"), ("saleRate", JValue.num 2)]]).map
        mkQuote) ∧
    ((([("USD", JValue.obj [("`sale`", JValue.num 2), ("purchase", JValue.str "N/A")])] :
        List (String × JValue)).map Prod.fst).Nodup) :=
  C10_last_duplicate_wins ["USD"]
    [JValue.obj [("currency", JValue.str "USD"), ("saleRate", JValue.num 1)],
     JValue.obj [("currency", JValue.str "USD"), ("saleRate", JValue.num 2)]]
    [("USD", JValue.obj [("`sale`", JValue.num 2), ("purchase", JValue.str "N/A")])]
    "USD" (by simp) rfl

end ExchangeRates
